import Mathlib

/-!
Verification of the quantitative exam-import pipeline
(`QuantitativeManagementView`): calibration crop boxes, answer-text
extraction, PDF text-layer location, OCR fallback, and the batch
conversion orchestrator.  Strings are modelled as `List Char` (the
source's strings are UTF-16 but every character involved lies in the
BMP, so code-unit indices coincide with character indices), pixel
coordinates as `ℚ`, and the fallible external collaborators
(pdf.js, Tesseract, canvas) as explicit outcome parameters.
-/

/-- The JavaScript `\s` whitespace class (per code point). -/
def isJsSpace (c : Char) : Bool :=
  let n := c.toNat
  n == 9 || n == 10 || n == 11 || n == 12 || n == 13 || n == 32 ||
  n == 0xa0 || n == 0x1680 || (decide (0x2000 ≤ n) && decide (n ≤ 0x200a)) ||
  n == 0x2028 || n == 0x2029 || n == 0x202f || n == 0x205f ||
  n == 0x3000 || n == 0xfeff

/-- Characters removed by the cleaning regex
`/[\s ​‌‍‎‏_\-\.]/g` in `extractAnswerFromText`. -/
def isStrippedChar (c : Char) : Bool :=
  isJsSpace c || c.toNat == 0x200b || c.toNat == 0x200c || c.toNat == 0x200d ||
  c.toNat == 0x200e || c.toNat == 0x200f || c == '_' || c == '-' || c == '.'

/-- Step 1 of `extractAnswerFromText`: strip whitespace, zero-width and
bidi controls, underscores, hyphens and periods. -/
def cleanText (s : List Char) : List Char :=
  s.filter (fun c => !isStrippedChar c)

/-- JavaScript `String.prototype.trim` (strips `\s` from both ends). -/
def jsTrim (s : List Char) : List Char :=
  ((s.dropWhile isJsSpace).reverse.dropWhile isJsSpace).reverse

/-- The marker list of `extractAnswerFromText` (spelling variants of
"the correct (answer)" / "the answer"), in source order. -/
def answerMarkers : List (List Char) :=
  [ "الصحيحة".data
  , "الصحيحه".data
  , "الاجابة".data
  , "الإجابة".data
  , "الأجابة".data
  , "الجواب".data ]

/-- `normalizeAnswer` from the source: map an alias character set onto the
four canonical letters, `none` outside all alias sets. -/
def normalizeAnswer (s : List Char) : Option Char :=
  if s.isEmpty then none
  else if ['أ', 'ا', 'A', 'a'].any (fun c => (jsTrim s).contains c) then some 'أ'
  else if ['ب', 'B', 'b'].any (fun c => (jsTrim s).contains c) then some 'ب'
  else if ['ج', 'C', 'c', 'J'].any (fun c => (jsTrim s).contains c) then some 'ج'
  else if ['د', 'D', 'd'].any (fun c => (jsTrim s).contains c) then some 'د'
  else none

/-- The answer-letter alphabet `/[أبجدABCD]/i` (the `i` flag adds the
lowercase Latin letters). -/
def isAnswerChar (c : Char) : Bool :=
  ['أ', 'ب', 'ج', 'د',
   'A', 'B', 'C', 'D', 'a', 'b', 'c', 'd'].contains c

/-- Does `m` occur in `s` starting at index `i`? -/
def occursAt (s m : List Char) (i : Nat) : Bool :=
  m.isPrefixOf (s.drop i)

/-- Scan indices `k, k-1, …, 0` for the last occurrence of `m` in `s`
(the search direction of `String.prototype.lastIndexOf`). -/
def lastIdxFrom (s m : List Char) : Nat → Option Nat
  | 0 => if occursAt s m 0 then some 0 else none
  | i + 1 => if occursAt s m (i + 1) then some (i + 1) else lastIdxFrom s m i

/-- `s.lastIndexOf(m)`, with `none` for JavaScript's `-1`. -/
def jsLastIndexOf (s m : List Char) : Option Nat :=
  lastIdxFrom s m s.length

/-- One iteration of the marker loop in `extractAnswerFromText`:
`acc = none` models `lastIndex = -1`. -/
def markerStep (s : List Char) (acc : Option (Nat × Nat)) (m : List Char) :
    Option (Nat × Nat) :=
  match jsLastIndexOf s m with
  | none => acc
  | some idx =>
    match acc with
    | none => some (idx, m.length)
    | some (li, ml) =>
      if li < idx then some (idx, m.length)
      else if idx == li && ml < m.length then some (li, m.length)
      else some (li, ml)

/-- The governing marker: `(lastIndex, matchedMarkerLength)` after the
marker loop of `extractAnswerFromText`. -/
def findGoverningMarker (s : List Char) : Option (Nat × Nat) :=
  answerMarkers.foldl (markerStep s) none

/-- Step 6 of `extractAnswerFromText`: the short-text fallback. -/
def shortTextFallback (clean : List Char) : Option Char :=
  if clean.length < 10 then
    match clean.find? isAnswerChar with
    | some c => normalizeAnswer [c]
    | none => none
  else none

/-- `extractAnswerFromText` from the source. -/
def extractAnswerFromText (text : List Char) : Option Char :=
  if text.isEmpty then none
  else
    match findGoverningMarker (cleanText text) with
    | some (idx, len) =>
      match ((cleanText text).drop (idx + len)).find? isAnswerChar with
      | some c => normalizeAnswer [c]
      | none => shortTextFallback (cleanText text)
    | none => shortTextFallback (cleanText text)

/-- Exact rational subtraction through `mkRat` (kernel-reducible; Mathlib's
`Sub ℚ` is irreducible, which would block evaluation of witnesses). -/
def qsub (a b : ℚ) : ℚ := mkRat (a.num * b.den - b.num * a.den) (a.den * b.den)

/-- Exact rational negation through `mkRat`. -/
def qneg (a : ℚ) : ℚ := mkRat (-a.num) a.den

/-- `Math.abs`, computed through `qneg`. -/
def qabs (a : ℚ) : ℚ := if a < 0 then qneg a else a

/-- `Math.min`. -/
def qmin (a b : ℚ) : ℚ := if a ≤ b then a else b

/-- `CropBox` from the source; JavaScript numbers are modelled as exact
rationals. -/
structure CropBox where
  x : ℚ
  y : ℚ
  width : ℚ
  height : ℚ
deriving DecidableEq

/-- The persisted crop configuration `{questionBox, answerBox}`. -/
structure CalibrationConfig where
  questionBox : Option CropBox
  answerBox : Option CropBox
deriving DecidableEq

/-- `CropMode` from the source (`'none' | 'question' | 'answer'`). -/
inductive CropMode
  | noMode
  | question
  | answer
deriving DecidableEq

/-- The configuration effect of `handleMouseUp`: given the crop mode, the
drawing flag, the recorded start position and the current (already
canvas-scaled) mouse position, commit the drawn rectangle when its width
and height both exceed 20, otherwise leave the configuration unchanged. -/
def handleMouseUp (mode : CropMode) (drawing : Bool)
    (start : Option (ℚ × ℚ)) (cur : ℚ × ℚ) (cfg : CalibrationConfig) :
    CalibrationConfig :=
  if !drawing then cfg
  else
    match start with
    | none => cfg
    | some sp =>
      if mode = CropMode.noMode then cfg
      else
        let width := qabs (qsub cur.1 sp.1)
        let height := qabs (qsub cur.2 sp.2)
        let x := qmin cur.1 sp.1
        let y := qmin cur.2 sp.2
        if width > 20 ∧ height > 20 then
          let newBox : CropBox := ⟨x, y, width, height⟩
          if mode = CropMode.question then
            { cfg with questionBox := some newBox }
          else
            { cfg with answerBox := some newBox }
        else cfg

/-- One RGBA pixel of a canvas `ImageData` buffer (the flat
`Uint8ClampedArray` regrouped in stride-4 quadruples). -/
structure Rgba where
  r : Nat
  g : Nat
  b : Nat
  a : Nat
deriving DecidableEq

/-- The BT.709 luminance `0.2126·R + 0.7152·G + 0.0722·B` as one exact
fraction (kernel-reducible form). -/
def luminance (r g b : Nat) : ℚ :=
  mkRat (2126 * r + 7152 * g + 722 * b) 10000

/-- The per-pixel body of the thresholding loop in `preprocessImage`:
BT.709 luminance, cutoff 140, alpha untouched. -/
def thresholdPixel (p : Rgba) : Rgba :=
  let gray : ℚ := luminance p.r p.g p.b
  let val : Nat := if gray < 140 then 0 else 255
  ⟨val, val, val, p.a⟩

/-- The whole-buffer thresholding transform of `preprocessImage`. -/
def thresholdData (d : List Rgba) : List Rgba :=
  d.map thresholdPixel

/-- Exact rational addition through `mkRat` (kernel-reducible). -/
def qadd (a b : ℚ) : ℚ := mkRat (a.num * b.den + b.num * a.den) (a.den * b.den)

/-- One entry of `textContent.items`: its string and the translation part
`transform[4]`, `transform[5]` of its text matrix (native PDF space). -/
structure TextItem where
  str : List Char
  tx : ℚ
  ty : ℚ
deriving DecidableEq

/-- One entry of `foundItems` in `detectAnswerFromPdfText`: the token
string and its viewport-space anchor point. -/
structure FoundItem where
  str : List Char
  x : ℚ
  y : ℚ
deriving DecidableEq

/-- The keep condition of `detectAnswerFromPdfText`: the mapped anchor
point lies within the crop box padded by 15 on every side. -/
def inPaddedBox (box : CropBox) (vx vy : ℚ) : Bool :=
  decide (qsub box.x 15 ≤ vx) &&
  decide (vx ≤ qadd (qadd box.x box.width) 15) &&
  decide (qsub box.y 15 ≤ vy) &&
  decide (vy ≤ qadd (qadd box.y box.height) 15)

/-- The token-collecting loop of `detectAnswerFromPdfText`: skip empty or
whitespace-only strings, map the anchor to viewport space through the
(pdf.js) `convert` function, keep the tokens inside the padded box. -/
def locateFound (convert : ℚ × ℚ → ℚ × ℚ) (items : List TextItem)
    (box : CropBox) : List FoundItem :=
  items.filterMap (fun it =>
    if it.str.isEmpty || (jsTrim it.str).isEmpty then none
    else
      let p := convert (it.tx, it.ty)
      if inPaddedBox box p.1 p.2 then some ⟨it.str, p.1, p.2⟩ else none)

/-- The sort comparator of `detectAnswerFromPdfText` as a binary relation:
`a` may precede `b` when the comparator is nonpositive
(`|a.y - b.y| > 5` compares by `y`, otherwise by `x`). -/
def itemLe (a b : FoundItem) : Bool :=
  if qabs (qsub a.y b.y) > 5 then decide (a.y ≤ b.y) else decide (a.x ≤ b.x)

/-- Stable two-way merge, structurally recursive on a fuel counter so
that the kernel can evaluate it (`merge2` below always supplies enough
fuel, and every lemma carries the sufficient-fuel hypothesis). -/
def mergeF (le : α → α → Bool) : Nat → List α → List α → List α
  | _, [], ys => ys
  | _, x :: xs, [] => x :: xs
  | 0, xs, ys => xs ++ ys
  | n + 1, x :: xs, y :: ys =>
    if le x y then x :: mergeF le n xs (y :: ys)
    else y :: mergeF le n (x :: xs) ys

/-- Stable two-way merge (fan-in of the merge sort used to model
`Array.prototype.sort`). -/
def merge2 (le : α → α → Bool) (xs ys : List α) : List α :=
  mergeF le (xs.length + ys.length) xs ys

/-- Split a list into the elements at even and odd positions. -/
def splitAlt : List α → List α × List α
  | [] => ([], [])
  | a :: rest =>
    let p := splitAlt rest
    (a :: p.2, p.1)

/-- Fuelled merge sort (structural recursion on the fuel). -/
def msortF (le : α → α → Bool) : Nat → List α → List α
  | _, [] => []
  | _, [a] => [a]
  | 0, l => l
  | n + 1, a :: b :: rest =>
    let p := splitAlt (a :: b :: rest)
    merge2 le (msortF le n p.1) (msortF le n p.2)

/-- Stable merge sort: the model of `Array.prototype.sort(comparator)`.
(The ECMAScript sort is only specified up to a consistent comparator; any
comparison sort is an admissible model, and the theorems below depend on
the comparator alone.) -/
def msort (le : α → α → Bool) (l : List α) : List α :=
  msortF le l.length l

/-- `foundItems.map(i => i.str).join('')`. -/
def rawTextOf (l : List FoundItem) : List Char :=
  (l.map FoundItem.str).flatten

/-- `detectAnswerFromPdfText`: `getText` is the outcome of
`page.getTextContent()` (an exception is caught and yields `null`),
`convert` is `viewport.convertToViewportPoint` at scale 2.0. -/
def detectAnswerFromPdfText (getText : Except Unit (List TextItem))
    (convert : ℚ × ℚ → ℚ × ℚ) (box : CropBox) : Option Char :=
  match getText with
  | Except.error _ => none
  | Except.ok items =>
    extractAnswerFromText (rawTextOf (msort itemLe (locateFound convert items box)))

/-- `detectAnswerFromImage`: `ocr` is the outcome of preprocessing plus
`Tesseract.recognize` (`Except.error` models a thrown exception, caught
and resolved to the first canonical letter; `Except.ok` carries the
recognised text).  The result is never null: when the extractor yields
`none` the explicit terminal fallback letter is returned. -/
def detectAnswerFromImage (ocr : Except Unit (List Char)) : Char :=
  match ocr with
  | Except.error _ => 'أ'
  | Except.ok text =>
    match extractAnswerFromText text with
    | some a => a
    | none => 'أ'

/-- `Question` (without the generated `id`), as assembled by
`processSinglePage`; the two crop images are opaque handles. -/
structure Question where
  questionText : List Char
  questionImage : Nat
  verificationImage : Nat
  options : List Char
  correctAnswer : Char
deriving DecidableEq

/-- The outcome of the external collaborators for one page of one
document: whether rendering/cropping raised (`renderOk`), whether the
canvas context was available (`ctxOk`), the two crop image handles, the
text layer and its viewport mapping, and the OCR outcome. -/
structure PageEffects where
  renderOk : Bool
  ctxOk : Bool
  qImage : Nat
  aImage : Nat
  getText : Except Unit (List TextItem)
  convert : ℚ × ℚ → ℚ × ℚ
  ocr : Except Unit (List Char)

/-- `processSinglePage`: render, crop, try the PDF text layer, fall back
to OCR; any exception is caught and converted to a `null` (`none`)
result, the placeholder prompt and the fixed option set are attached. -/
def processSinglePage (eff : PageEffects) (answerBox : CropBox) :
    Option Question :=
  if !eff.ctxOk then none
  else if !eff.renderOk then none
  else
    let detected : Option Char :=
      match detectAnswerFromPdfText eff.getText eff.convert answerBox with
      | some a => some a
      | none => some (detectAnswerFromImage eff.ocr)
    some
      { questionText := "اختر الإجابة الصحيحة".data
      , questionImage := eff.qImage
      , verificationImage := eff.aImage
      , options := ['أ', 'ب', 'ج', 'د']
      , correctAnswer := detected.getD 'أ' }

/-- `Math.round` (half away from zero is half toward `+∞` in JavaScript),
as floor division on the rational's numerator and denominator
(kernel-reducible form of `⌊q + 1/2⌋`). -/
def jsRound (q : ℚ) : ℤ :=
  Int.fdiv (qadd q (mkRat 1 2)).num ((qadd q (mkRat 1 2)).den : ℤ)

/-- `Math.round((count / total) * 100)` with exact rational division.
(For `total = 0` JavaScript produces `NaN`; this corner is unreachable in
the runs the claims quantify over and is modelled as `0`.) -/
def pctOf (count total : Nat) : ℤ :=
  jsRound (mkRat (100 * count) total)

/-- The status of a batch run. -/
inductive BatchStatus
  | notStarted
  | success
  | error
deriving DecidableEq

/-- One uploaded file together with the outcomes of its two reads
(`arrayBuffer`/`getDocument` runs once in the page-count loop, once in
the main loop; either can throw independently) and the per-page
collaborator outcomes. -/
structure FileModel where
  name : List Char
  metaRead : Option Nat
  mainRead : Option Nat
  pages : Nat → PageEffects

/-- `pdf.numPages > 1 ? pdf.numPages - 1 : 0` — pages counted for the
progress denominator, skipping the cover page. -/
def coverSkippedCount (n : Nat) : Nat :=
  if n > 1 then n - 1 else 0

/-- `Map.set` with last-write-wins lookup (prepend plus first-match). -/
def setKey (m : List (List Char × Nat)) (k : List Char) (v : Nat) :
    List (List Char × Nat) :=
  (k, v) :: m

/-- The page-count pre-calculation loop of `processAndSaveTests`: a read
failure is caught per file (the file is merely absent from the map and
from the total). -/
def phase1 (files : List FileModel) : List (List Char × Nat) × Nat :=
  files.foldl (fun acc f =>
    match f.metaRead with
    | none => acc
    | some n =>
      (setKey acc.1 f.name (coverSkippedCount n), acc.2 + coverSkippedCount n))
    ([], 0)

/-- `Array.from({length: numPages - 1}, (_, i) => i + 2)` — the page
numbers to process, skipping the cover page 1. -/
def pageIndices (numPages : Nat) : List Nat :=
  (List.range (numPages - 1)).map (fun i => i + 2)

/-- The chunking loop `for (let i = 0; i < xs.length; i += 5)` with
`xs.slice(i, i + 5)` (the concurrency windows of size 5), written as
structural recursion taking five heads at a time. -/
def chunks5 : List α → List (List α)
  | [] => []
  | [a] => [[a]]
  | [a, b] => [[a, b]]
  | [a, b, c] => [[a, b, c]]
  | [a, b, c, d] => [[a, b, c, d]]
  | a :: b :: c :: d :: e :: rest => [a, b, c, d, e] :: chunks5 rest

/-- State collected while processing the windows of one document. -/
structure ChunkState where
  qs : List Question
  count : Nat
  updates : List (Nat × ℤ)
deriving DecidableEq

/-- The window loop of `processAndSaveTests` for one document: process a
window of pages, collect non-null results in order, advance the global
counter by the window length, and emit a progress update when the counter
is divisible by 5 or equals the precomputed total. -/
def processChunks (answerBox : CropBox) (effs : Nat → PageEffects)
    (total : Nat) : List (List Nat) → Nat → ChunkState
  | [], c => ⟨[], c, []⟩
  | ch :: rest, c =>
    let results := ch.map (fun i => processSinglePage (effs i) answerBox)
    let qs := results.filterMap id
    let c2 := c + ch.length
    let up : List (Nat × ℤ) :=
      if c2 % 5 == 0 || c2 == total then [(c2, pctOf c2 total)] else []
    let s := processChunks answerBox effs total rest c2
    ⟨qs ++ s.qs, s.count, up ++ s.updates⟩

/-- `rawName = file.name.replace(/\.pdf$/i, '')`. -/
def stripPdfExt (name : List Char) : List Char :=
  if (name.drop (name.length - 4)).map Char.toLower = ".pdf".data ∧ 4 ≤ name.length
  then name.take (name.length - 4)
  else name

/-- `testName = rawName.split('-')[0].trim()`. -/
def testNameOf (name : List Char) : List Char :=
  jsTrim ((stripPdfExt name).takeWhile (fun c => c != '-'))

/-- State collected by the main document loop. -/
structure RunState where
  count : Nat
  updates : List (Nat × ℤ)
  tests : List (List Char × List Question)
  ok : Bool

/-- The main document loop of `processAndSaveTests` inside its `try`:
a content-read failure (`mainRead = none`) raises out of the loop and
aborts the batch (`ok = false`); otherwise the document's windows are
processed and one `Test` named `testNameOf` is created exactly when at
least one `Question` was collected. -/
def runFiles (answerBox : CropBox) (total : Nat) :
    List FileModel → Nat → RunState
  | [], c => ⟨c, [], [], true⟩
  | f :: rest, c =>
    match f.mainRead with
    | none => ⟨c, [], [], false⟩
    | some n =>
      let s1 := processChunks answerBox f.pages total (chunks5 (pageIndices n)) c
      let t : List (List Char × List Question) :=
        if s1.qs.length > 0 then [(testNameOf f.name, s1.qs)] else []
      let s2 := runFiles answerBox total rest s1.count
      ⟨s2.count, s1.updates ++ s2.updates, t ++ s2.tests, s2.ok⟩

/-- Observable outcome of one batch run: final status, the progress
updates issued inside the loop as `(counter, rounded percent)` pairs, the
created tests with their questions in order, the final counter value and
the precomputed denominator. -/
structure BatchResult where
  status : BatchStatus
  updates : List (Nat × ℤ)
  tests : List (List Char × List Question)
  processed : Nat
  totalPages : Nat

/-- `processAndSaveTests`: reject when calibration is incomplete or no
file is selected, pre-compute the totals (read failures caught per file),
then run the document loop; an uncaught failure there yields the error
status while keeping the tests already created. -/
def processAndSaveTests (cfg : CalibrationConfig) (files : List FileModel) :
    BatchResult :=
  match cfg.questionBox, cfg.answerBox with
  | some _, some answerBox =>
    if files.isEmpty then ⟨BatchStatus.notStarted, [], [], 0, 0⟩
    else
      let p1 := phase1 files
      let r := runFiles answerBox p1.2 files 0
      ⟨if r.ok then BatchStatus.success else BatchStatus.error,
       r.updates, r.tests, r.count, p1.2⟩
  | _, _ => ⟨BatchStatus.notStarted, [], [], 0, 0⟩

def fileQuestions (answerBox : CropBox) (f : FileModel) (n : Nat) : List Question :=
  (pageIndices n).filterMap (fun i => processSinglePage (f.pages i) answerBox)

def testOf (answerBox : CropBox) (f : FileModel) : Option (List Char × List Question) :=
  match f.mainRead with
  | none => none
  | some n =>
    if (fileQuestions answerBox f n).length > 0
    then some (testNameOf f.name, fileQuestions answerBox f n)
    else none

def windowBoundaries (c : Nat) : List (List Nat) → List Nat
  | [] => []
  | ch :: rest => (c + ch.length) :: windowBoundaries (c + ch.length) rest

def runBoundaries (c : Nat) : List FileModel → List Nat
  | [] => []
  | f :: rest =>
    match f.mainRead with
    | none => []
    | some n =>
      windowBoundaries c (chunks5 (pageIndices n)) ++
      runBoundaries (c + (pageIndices n).length) rest

def updateOf (total : Nat) (b : Nat) : Option (Nat × ℤ) :=
  if b % 5 == 0 || b == total then some (b, pctOf b total) else none

def pagesSum (files : List FileModel) : Nat :=
  (files.map (fun f =>
    match f.mainRead with
    | some n => (pageIndices n).length
    | none => 0)).sum

def metaSum (files : List FileModel) : Nat :=
  (files.map (fun f =>
    match f.metaRead with
    | some n => coverSkippedCount n
    | none => 0)).sum

/-- The row-ordering property the specification claims for the sorted
token list: any earlier token is left of a same-row later token
(vertical distance at most 5) and above a different-row later token. -/
def rowOrdered (l : List FoundItem) : Prop :=
  l.Pairwise (fun a b =>
    (qabs (qsub a.y b.y) ≤ 5 → a.x ≤ b.x) ∧
    (qabs (qsub a.y b.y) > 5 → a.y ≤ b.y))

def sampleBox : CropBox := ⟨0, 0, 100, 50⟩

def cfgGood : CalibrationConfig := ⟨some sampleBox, some sampleBox⟩

def goodEff : PageEffects :=
  ⟨true, true, 1, 2, Except.ok [⟨"الجواب ب".data, 10, 10⟩], id, Except.error ()⟩

def goodFile : FileModel := ⟨"Quiz.pdf".data, some 6, some 6, fun _ => goodEff⟩

def questionGood : Question :=
  ⟨"اختر الإجابة الصحيحة".data, 1, 2, ['أ', 'ب', 'ج', 'د'], 'ب'⟩

def metaFailFile : FileModel := ⟨"Doc.pdf".data, none, some 2, fun _ => goodEff⟩

def mainFailFile : FileModel := ⟨"Bad.pdf".data, some 3, none, fun _ => goodEff⟩

def fileA3 : FileModel := ⟨"A.pdf".data, some 4, some 4, fun _ => goodEff⟩

def fileB5 : FileModel := ⟨"B.pdf".data, some 6, some 6, fun _ => goodEff⟩

def cexBox : CropBox := ⟨0, 0, 100, 50⟩

def cexItems : List TextItem :=
  [⟨"ب".data, 10, 0⟩, ⟨"ج".data, 0, 4⟩, ⟨"د".data, -5, 8⟩, ⟨" ".data, 20, 20⟩]

def rowItems : List TextItem :=
  [⟨"ب".data, 30, 10⟩, ⟨"أ".data, 5, 12⟩, ⟨"ج".data, 7, 40⟩]

theorem qsub_eq (a b : ℚ) : qsub a b = a - b := by
  unfold qsub
  rw [Rat.mkRat_eq_div]
  push_cast
  rw [div_eq_iff (by positivity)]
  rw [sub_mul (a : ℚ) b]
  rw [show a * (↑a.den * ↑b.den) = a * a.den * b.den by ring,
      show b * (↑a.den * ↑b.den) = b * b.den * a.den by ring,
      Rat.mul_den_eq_num, Rat.mul_den_eq_num]

theorem qneg_eq (a : ℚ) : qneg a = -a := by
  unfold qneg
  rw [Rat.mkRat_eq_div]
  push_cast
  rw [neg_div, Rat.num_div_den]

theorem qabs_eq (a : ℚ) : qabs a = |a| := by
  unfold qabs
  rw [qneg_eq]
  rcases lt_or_le a 0 with h | h
  · simp [h, abs_of_neg h]
  · simp [not_lt.mpr h, abs_of_nonneg h]

theorem qmin_eq (a b : ℚ) : qmin a b = min a b := by
  unfold qmin
  rcases le_total a b with h | h
  · simp [min_def, h]
  · rcases eq_or_lt_of_le h with h' | h'
    · simp [h', min_def]
    · simp [min_def, not_le.mpr h', h]

theorem luminance_eq (r g b : Nat) :
    luminance r g b = 0.2126 * r + 0.7152 * g + 0.0722 * b := by
  unfold luminance
  rw [Rat.mkRat_eq_div]
  push_cast
  rw [show (0.2126 : ℚ) = 2126 / 10000 by norm_num,
      show (0.7152 : ℚ) = 7152 / 10000 by norm_num,
      show (0.0722 : ℚ) = 722 / 10000 by norm_num]
  field_simp

theorem qadd_eq (a b : ℚ) : qadd a b = a + b := by
  unfold qadd
  rw [Rat.mkRat_eq_div]
  push_cast
  rw [div_eq_iff (by positivity)]
  rw [add_mul (a : ℚ) b]
  rw [show a * (↑a.den * ↑b.den) = a * a.den * b.den by ring,
      show b * (↑a.den * ↑b.den) = b * b.den * a.den by ring,
      Rat.mul_den_eq_num, Rat.mul_den_eq_num]

theorem splitAlt_length (l : List α) :
    (splitAlt l).1.length = (l.length + 1) / 2 ∧
    (splitAlt l).2.length = l.length / 2 := by
  induction l with
  | nil => simp [splitAlt]
  | cons a rest ih =>
    simp only [splitAlt, List.length_cons]
    omega

theorem thresholdPixel_idem (p : Rgba) : thresholdPixel (thresholdPixel p) = thresholdPixel p := by
  unfold thresholdPixel
  by_cases h : luminance p.r p.g p.b < 140
  · simp only [h, if_pos]
    have h0 : luminance 0 0 0 < 140 := by decide
    simp [h0]
  · simp only [h, if_neg, if_false]
    have h255 : ¬ luminance 255 255 255 < 140 := by decide
    simp [h255]

theorem threshold_idempotent_binary (d : List Rgba) :
    (∀ p ∈ thresholdData d,
      (p.r = 0 ∨ p.r = 255) ∧ (p.g = 0 ∨ p.g = 255) ∧ (p.b = 0 ∨ p.b = 255)) ∧
    thresholdData (thresholdData d) = thresholdData d := by
  constructor
  · intro p hp
    rcases List.mem_map.mp hp with ⟨q, _, rfl⟩
    unfold thresholdPixel
    by_cases h : luminance q.r q.g q.b < 140 <;> simp [h]
  · unfold thresholdData
    rw [List.map_map]
    exact List.map_congr_left (fun p _ => thresholdPixel_idem p)

theorem cropbox_frame (drawing : Bool) (start : Option (ℚ × ℚ)) (cur : ℚ × ℚ)
    (cfg : CalibrationConfig) :
    (handleMouseUp CropMode.question drawing start cur cfg).answerBox = cfg.answerBox ∧
    (handleMouseUp CropMode.answer drawing start cur cfg).questionBox = cfg.questionBox := by
  unfold handleMouseUp
  cases drawing <;> cases start <;> constructor <;> simp <;> split_ifs <;> rfl

theorem cropbox_commit_iff (mode : CropMode) (sp cur : ℚ × ℚ)
    (cfg : CalibrationConfig) (hmode : mode ≠ CropMode.noMode) :
    (¬ (qabs (qsub cur.1 sp.1) > 20 ∧ qabs (qsub cur.2 sp.2) > 20) →
      handleMouseUp mode true (some sp) cur cfg = cfg) ∧
    ((qabs (qsub cur.1 sp.1) > 20 ∧ qabs (qsub cur.2 sp.2) > 20) →
      handleMouseUp mode true (some sp) cur cfg =
        (if mode = CropMode.question
         then { cfg with questionBox := some (CropBox.mk (qmin cur.1 sp.1)
                  (qmin cur.2 sp.2) (qabs (qsub cur.1 sp.1)) (qabs (qsub cur.2 sp.2))) }
         else { cfg with answerBox := some (CropBox.mk (qmin cur.1 sp.1)
                  (qmin cur.2 sp.2) (qabs (qsub cur.1 sp.1)) (qabs (qsub cur.2 sp.2))) })) := by
  unfold handleMouseUp
  simp only [Bool.not_true, if_neg, hmode, if_false]
  constructor
  · intro h
    simp [h]
  · intro h
    simp [h]

theorem chunks5_length (l : List α) : (chunks5 l).length = (l.length + 4) / 5 := by
  induction l using chunks5.induct <;> simp [chunks5, *] <;> try omega

theorem chunks5_flatten (l : List α) : (chunks5 l).flatten = l := by
  induction l using chunks5.induct <;> simp [chunks5, *]

theorem chunks5_ne_nil (l : List α) : ∀ ch ∈ chunks5 l, ch ≠ [] := by
  induction l using chunks5.induct with
  | case6 a b c d e rest ih =>
    intro ch hch
    simp only [chunks5, List.mem_cons] at hch
    rcases hch with h | h
    · simp [h]
    · exact ih ch h
  | _ => simp [chunks5]

theorem pageIndices_eq (P : Nat) : pageIndices P = List.range' 2 (P - 1) := by
  unfold pageIndices
  rw [List.range'_eq_map_range]
  exact List.map_congr_left (fun i _ => Nat.add_comm i 2)

theorem cover_page_and_windows (P : Nat) :
    pageIndices P = List.range' 2 (P - 1) ∧
    (pageIndices P).length = P - 1 ∧
    coverSkippedCount P = P - 1 ∧
    (chunks5 (pageIndices P)).length = ((P - 1) + 4) / 5 := by
  refine ⟨pageIndices_eq P, ?_, ?_, ?_⟩
  · simp [pageIndices]
  · unfold coverSkippedCount
    split <;> omega
  · rw [chunks5_length]
    simp [pageIndices]

theorem normalizeAnswer_canonical (s : List Char) (c : Char)
    (h : normalizeAnswer s = some c) : c ∈ (['أ', 'ب', 'ج', 'د'] : List Char) := by
  unfold normalizeAnswer at h
  split_ifs at h <;>
    first
    | (injection h with h; subst h; decide)
    | simp at h

theorem shortTextFallback_canonical (s : List Char) (c : Char)
    (h : shortTextFallback s = some c) :
    c ∈ (['أ', 'ب', 'ج', 'د'] : List Char) := by
  unfold shortTextFallback at h
  split_ifs at h
  rcases hf : s.find? isAnswerChar with _ | d <;> rw [hf] at h
  · cases h
  · exact normalizeAnswer_canonical _ _ h

theorem extractAnswer_canonical (t : List Char) (c : Char)
    (h : extractAnswerFromText t = some c) :
    c ∈ (['أ', 'ب', 'ج', 'د'] : List Char) := by
  unfold extractAnswerFromText at h
  by_cases ht : t.isEmpty = true
  · rw [if_pos ht] at h
    cases h
  · rw [if_neg ht] at h
    rcases hm : findGoverningMarker (cleanText t) with _ | ⟨i, l⟩
    · rw [hm] at h
      exact shortTextFallback_canonical _ _ h
    · rw [hm] at h
      dsimp only at h
      rcases hf : ((cleanText t).drop (i + l)).find? isAnswerChar with _ | d
      · rw [hf] at h
        exact shortTextFallback_canonical _ _ h
      · rw [hf] at h
        exact normalizeAnswer_canonical _ _ h

theorem detectAnswerFromImage_canonical (ocr : Except Unit (List Char)) :
    detectAnswerFromImage ocr ∈ (['أ', 'ب', 'ج', 'د'] : List Char) := by
  rcases ocr with e | t
  · simp [detectAnswerFromImage]
  · rcases he : extractAnswerFromText t with _ | c
    · simp [detectAnswerFromImage, he]
    · have hc := extractAnswer_canonical _ _ he
      simpa [detectAnswerFromImage, he] using hc

theorem detect_never_null (ocrFail : Unit) (t : List Char)
    (eff : PageEffects) (box : CropBox) (q : Question) :
    detectAnswerFromImage (Except.error ocrFail) = 'أ' ∧
    (extractAnswerFromText t = none → detectAnswerFromImage (Except.ok t) = 'أ') ∧
    detectAnswerFromImage (Except.ok t) ∈ (['أ', 'ب', 'ج', 'د'] : List Char) ∧
    (processSinglePage eff box = some q →
      q.correctAnswer ∈ (['أ', 'ب', 'ج', 'د'] : List Char)) := by
  refine ⟨rfl, ?_, detectAnswerFromImage_canonical (Except.ok t), ?_⟩
  · intro h
    simp [detectAnswerFromImage, h]
  · intro h
    unfold processSinglePage at h
    split_ifs at h
    rcases hd : detectAnswerFromPdfText eff.getText eff.convert box with _ | c <;>
      rw [hd] at h <;> dsimp only at h <;> injection h with h <;> subst h
    · simpa using detectAnswerFromImage_canonical eff.ocr
    · unfold detectAnswerFromPdfText at hd
      rcases hg : eff.getText with _ | items <;> rw [hg] at hd
      · cases hd
      · simpa using extractAnswer_canonical _ _ hd

theorem lastIdxFrom_some (s m : List Char) :
    ∀ k i, lastIdxFrom s m k = some i →
      occursAt s m i ∧ i ≤ k ∧ ∀ j, j ≤ k → occursAt s m j → j ≤ i := by
  intro k
  induction k with
  | zero =>
    intro i h
    unfold lastIdxFrom at h
    split_ifs at h with h0
    · injection h with h
      subst h
      exact ⟨h0, Nat.le_refl 0, fun j hj _ => hj⟩
  | succ n ih =>
    intro i h
    unfold lastIdxFrom at h
    split_ifs at h with hocc
    · injection h with h
      subst h
      exact ⟨hocc, Nat.le_refl _, fun j hj _ => hj⟩
    · obtain ⟨h1, h2, h3⟩ := ih i h
      refine ⟨h1, Nat.le_trans h2 (Nat.le_succ n), fun j hj hoj => ?_⟩
      rcases Nat.lt_or_ge j (n + 1) with hlt | hge
      · exact h3 j (Nat.lt_succ_iff.mp hlt) hoj
      · have hj' : j = n + 1 := Nat.le_antisymm hj hge
        subst hj'
        exact absurd hoj (by simpa using hocc)

theorem lastIdxFrom_isSome (s m : List Char) :
    ∀ k j, j ≤ k → occursAt s m j →
      ∃ i, lastIdxFrom s m k = some i ∧ j ≤ i := by
  intro k
  induction k with
  | zero =>
    intro j hj hoj
    interval_cases j
    exact ⟨0, by simp [lastIdxFrom, hoj], Nat.le_refl 0⟩
  | succ n ih =>
    intro j hj hoj
    by_cases hocc : occursAt s m (n + 1)
    · exact ⟨n + 1, by simp [lastIdxFrom, hocc], hj⟩
    · have hj' : j ≤ n := by
        rcases Nat.lt_or_ge j (n + 1) with hlt | hge
        · exact Nat.lt_succ_iff.mp hlt
        · exact absurd hoj (by simpa [Nat.le_antisymm hj hge] using hocc)
      obtain ⟨i, hi, hji⟩ := ih j hj' hoj
      exact ⟨i, by simp [lastIdxFrom, hocc, hi], hji⟩

theorem occursAt_le_length (s m : List Char) (hm : m ≠ []) (j : Nat)
    (h : occursAt s m j) : j ≤ s.length := by
  by_contra hgt
  have hd : s.drop j = [] := List.drop_eq_nil_of_le (Nat.le_of_lt (Nat.lt_of_not_le hgt))
  unfold occursAt at h
  rw [hd] at h
  have := List.isPrefixOf_iff_prefix.mp h
  exact hm (List.prefix_nil.mp this)

theorem jsLastIndexOf_spec (s m : List Char) (hm : m ≠ []) (i : Nat)
    (h : jsLastIndexOf s m = some i) :
    occursAt s m i ∧ ∀ j, occursAt s m j → j ≤ i := by
  obtain ⟨h1, _, h3⟩ := lastIdxFrom_some s m s.length i h
  exact ⟨h1, fun j hoj => h3 j (occursAt_le_length s m hm j hoj) hoj⟩

theorem jsLastIndexOf_of_occurs (s m : List Char) (j : Nat)
    (h : occursAt s m j) (hm : m ≠ []) :
    ∃ i, jsLastIndexOf s m = some i ∧ j ≤ i :=
  lastIdxFrom_isSome s m s.length j (occursAt_le_length s m hm j h) h

theorem foldl_markerStep_spec (s : List Char) :
    ∀ (ms : List (List Char)) (acc : Option (Nat × Nat)) (i l : Nat),
      ms.foldl (markerStep s) acc = some (i, l) →
      (acc = some (i, l) ∨ ∃ m ∈ ms, jsLastIndexOf s m = some i ∧ m.length = l) ∧
      (∀ m ∈ ms, ∀ j, jsLastIndexOf s m = some j →
        j < i ∨ (j = i ∧ m.length ≤ l)) ∧
      (∀ i' l', acc = some (i', l') → i' < i ∨ (i' = i ∧ l' ≤ l)) := by
  intro ms
  induction ms with
  | nil =>
    intro acc i l h
    simp only [List.foldl_nil] at h
    refine ⟨Or.inl h, by simp, fun i' l' h' => ?_⟩
    have he := h.symm.trans h'
    injection he with he
    injection he with he1 he2
    exact Or.inr ⟨he1.symm, Nat.le_of_eq he2.symm⟩
  | cons m ms ih =>
    intro acc i l h
    rw [List.foldl_cons] at h
    obtain ⟨ha, hb, hc⟩ := ih (markerStep s acc m) i l h
    rcases hL : jsLastIndexOf s m with _ | idx
    · -- marker m does not occur: the step leaves acc unchanged
      have hst : markerStep s acc m = acc := by simp [markerStep, hL]
      rw [hst] at ha hc
      refine ⟨?_, ?_, hc⟩
      · rcases ha with ha | ⟨m', hm', hspec⟩
        · exact Or.inl ha
        · exact Or.inr ⟨m', List.mem_cons_of_mem m hm', hspec⟩
      · intro m' hm' j hj
        rcases List.mem_cons.mp hm' with rfl | hm'
        · rw [hL] at hj
          cases hj
        · exact hb m' hm' j hj
    · rcases acc with _ | ⟨li, ml⟩
      · -- lastIndex = -1: first hit always wins
        have hst : markerStep s none m = some (idx, m.length) := by
          simp [markerStep, hL]
        rw [hst] at ha hc
        have hm0 := hc idx m.length rfl
        refine ⟨?_, ?_, by simp⟩
        · rcases ha with ha | ⟨m', hm', hspec⟩
          · injection ha with ha
            injection ha with ha1 ha2
            exact Or.inr ⟨m, List.mem_cons_self m ms, by rw [hL, ha1], ha2⟩
          · exact Or.inr ⟨m', List.mem_cons_of_mem m hm', hspec⟩
        · intro m' hm' j hj
          rcases List.mem_cons.mp hm' with rfl | hm'
          · rw [hL] at hj
            injection hj with hj
            subst hj
            exact hm0
          · exact hb m' hm' j hj
      · by_cases h1 : li < idx
        · have hst : markerStep s (some (li, ml)) m = some (idx, m.length) := by
            simp [markerStep, hL, h1]
          rw [hst] at ha hc
          have hm0 := hc idx m.length rfl
          refine ⟨?_, ?_, fun i' l' h' => ?_⟩
          · rcases ha with ha | ⟨m', hm', hspec⟩
            · injection ha with ha
              injection ha with ha1 ha2
              exact Or.inr ⟨m, List.mem_cons_self m ms, by rw [hL, ha1], ha2⟩
            · exact Or.inr ⟨m', List.mem_cons_of_mem m hm', hspec⟩
          · intro m' hm' j hj
            rcases List.mem_cons.mp hm' with rfl | hm'
            · rw [hL] at hj
              injection hj with hj
              subst hj
              exact hm0
            · exact hb m' hm' j hj
          · injection h' with h'
            injection h' with he1 he2
            subst he1
            subst he2
            rcases hm0 with hlt | ⟨heq, _⟩
            · exact Or.inl (Nat.lt_trans h1 hlt)
            · exact Or.inl (heq ▸ h1)
        · by_cases h2 : idx = li ∧ ml < m.length
          · have hst : markerStep s (some (li, ml)) m = some (li, m.length) := by
              simp only [markerStep, hL, if_neg h1]
              rw [if_pos]
              simp only [Bool.and_eq_true, beq_iff_eq, decide_eq_true_eq]
              exact h2
            rw [hst] at ha hc
            have hm0 := hc li m.length rfl
            refine ⟨?_, ?_, fun i' l' h' => ?_⟩
            · rcases ha with ha | ⟨m', hm', hspec⟩
              · injection ha with ha
                injection ha with ha1 ha2
                exact Or.inr ⟨m, List.mem_cons_self m ms,
                  by rw [hL, h2.1, ha1], ha2⟩
              · exact Or.inr ⟨m', List.mem_cons_of_mem m hm', hspec⟩
            · intro m' hm' j hj
              rcases List.mem_cons.mp hm' with rfl | hm'
              · rw [hL] at hj
                injection hj with hj
                subst hj
                rw [h2.1]
                exact hm0
              · exact hb m' hm' j hj
            · injection h' with h'
              injection h' with he1 he2
              subst he1
              subst he2
              rcases hm0 with hlt | ⟨heq, hle⟩
              · exact Or.inl hlt
              · exact Or.inr ⟨heq, Nat.le_trans (Nat.le_of_lt h2.2) hle⟩
          · have hst : markerStep s (some (li, ml)) m = some (li, ml) := by
              simp only [markerStep, hL, if_neg h1]
              rw [if_neg]
              simp only [Bool.and_eq_true, beq_iff_eq, decide_eq_true_eq]
              exact h2
            rw [hst] at ha hc
            refine ⟨?_, ?_, hc⟩
            · rcases ha with ha | ⟨m', hm', hspec⟩
              · exact Or.inl ha
              · exact Or.inr ⟨m', List.mem_cons_of_mem m hm', hspec⟩
            · intro m' hm' j hj
              rcases List.mem_cons.mp hm' with rfl | hm'
              · rw [hL] at hj
                injection hj with hj
                subst hj
                have hacc := hc li ml rfl
                have hile : idx ≤ li := Nat.le_of_not_lt h1
                rcases Nat.lt_or_ge idx li with hlt | hge
                · rcases hacc with h' | ⟨heq, _⟩
                  · exact Or.inl (Nat.lt_trans hlt h')
                  · exact Or.inl (heq ▸ hlt)
                · have heq : idx = li := Nat.le_antisymm hile hge
                  subst heq
                  have hml : m'.length ≤ ml := by
                    by_contra hml
                    exact h2 ⟨rfl, Nat.lt_of_not_le hml⟩
                  rcases hacc with h' | ⟨heq2, hle2⟩
                  · exact Or.inl h'
                  · exact Or.inr ⟨heq2, Nat.le_trans hml hle2⟩
              · exact hb m' hm' j hj

theorem answer_marker_selection (text : List Char) (i l : Nat)
    (h : findGoverningMarker (cleanText text) = some (i, l)) :
    (∃ m ∈ answerMarkers, occursAt (cleanText text) m i ∧ m.length = l) ∧
    (∀ m ∈ answerMarkers, ∀ j, occursAt (cleanText text) m j → j ≤ i) ∧
    (∀ m ∈ answerMarkers, occursAt (cleanText text) m i → m.length ≤ l) ∧
    (text.isEmpty = false →
      extractAnswerFromText text =
        match ((cleanText text).drop (i + l)).find? isAnswerChar with
        | some c => normalizeAnswer [c]
        | none => shortTextFallback (cleanText text)) := by
  have hm : ∀ m ∈ answerMarkers, m ≠ [] := by decide
  obtain ⟨ha, hb, _⟩ :=
    foldl_markerStep_spec (cleanText text) answerMarkers none i l h
  refine ⟨?_, ?_, ?_, ?_⟩
  · rcases ha with ha | ⟨m, hmem, hL, hlen⟩
    · cases ha
    · exact ⟨m, hmem, (jsLastIndexOf_spec _ m (hm m hmem) i hL).1, hlen⟩
  · intro m hmem j hocc
    obtain ⟨j', hj', hjj'⟩ := jsLastIndexOf_of_occurs _ m j hocc (hm m hmem)
    rcases hb m hmem j' hj' with hlt | ⟨heq, _⟩
    · exact Nat.le_trans hjj' (Nat.le_of_lt hlt)
    · exact heq ▸ hjj'
  · intro m hmem hocc
    obtain ⟨j', hj', hjj'⟩ := jsLastIndexOf_of_occurs _ m i hocc (hm m hmem)
    rcases hb m hmem j' hj' with hlt | ⟨heq, hle⟩
    · exact absurd (Nat.lt_of_le_of_lt hjj' hlt) (Nat.lt_irrefl i)
    · exact hle
  · intro hne
    unfold extractAnswerFromText
    rw [if_neg (by simp [hne]), h]

theorem processChunks_spec (answerBox : CropBox) (effs : Nat → PageEffects)
    (total : Nat) :
    ∀ (chs : List (List Nat)) (c : Nat),
      (processChunks answerBox effs total chs c).qs =
        chs.flatten.filterMap (fun i => processSinglePage (effs i) answerBox) ∧
      (processChunks answerBox effs total chs c).count = c + chs.flatten.length ∧
      (processChunks answerBox effs total chs c).updates =
        (windowBoundaries c chs).filterMap (updateOf total) := by
  intro chs
  induction chs with
  | nil => intro c; simp [processChunks, windowBoundaries]
  | cons ch rest ih =>
    intro c
    obtain ⟨h1, h2, h3⟩ := ih (c + ch.length)
    refine ⟨?_, ?_, ?_⟩
    · simp [processChunks, h1, List.filterMap_map, Function.comp]
    · simp [processChunks, h2]
      omega
    · simp only [processChunks, h3, windowBoundaries, List.filterMap_cons, updateOf]
      split <;> simp

theorem runFiles_spec (answerBox : CropBox) (total : Nat) :
    ∀ (files : List FileModel) (c : Nat),
      (runFiles answerBox total files c).ok
        = files.all (fun f => f.mainRead.isSome) ∧
      (runFiles answerBox total files c).tests =
        (files.takeWhile (fun f => f.mainRead.isSome)).filterMap (testOf answerBox) ∧
      (runFiles answerBox total files c).updates =
        (runBoundaries c files).filterMap (updateOf total) ∧
      ((∀ f ∈ files, f.mainRead.isSome) →
        (runFiles answerBox total files c).count = c + pagesSum files) := by
  intro files
  induction files with
  | nil => intro c; simp [runFiles, runBoundaries, pagesSum]
  | cons f rest ih =>
    intro c
    rcases hmr : f.mainRead with _ | n
    · refine ⟨?_, ?_, ?_, ?_⟩
      · simp [runFiles, hmr]
      · simp [runFiles, hmr, List.takeWhile_cons, Option.isSome]
      · simp [runFiles, hmr, runBoundaries]
      · intro hall
        exact absurd (hall f (List.mem_cons_self f rest)) (by simp [hmr])
    · obtain ⟨hq1, hq2, hq3⟩ :=
        processChunks_spec answerBox f.pages total (chunks5 (pageIndices n)) c
      have hcount : (processChunks answerBox f.pages total
          (chunks5 (pageIndices n)) c).count = c + (pageIndices n).length := by
        rw [hq2, chunks5_flatten]
      obtain ⟨h1, h2, h3, h4⟩ := ih (c + (pageIndices n).length)
      refine ⟨?_, ?_, ?_, ?_⟩
      · simp [runFiles, hmr, hcount, h1]
      · simp only [runFiles, hmr, hcount, h2, List.takeWhile_cons, hq1,
          chunks5_flatten, Option.isSome, if_pos]
        simp only [List.filterMap_cons, testOf, hmr, fileQuestions]
        split <;> split <;> simp_all
      · simp only [runFiles, hmr, hcount, h3, hq3, runBoundaries,
          List.filterMap_append]
      · intro hall
        simp only [runFiles, hmr, hcount]
        rw [h4 (fun g hg => hall g (List.mem_cons_of_mem f hg))]
        simp [pagesSum, hmr]
        omega

theorem phase1_total (files : List FileModel) :
    (phase1 files).2 = metaSum files := by
  have key : ∀ (fs : List FileModel) (acc : List (List Char × Nat) × Nat),
      (fs.foldl (fun acc f =>
        match f.metaRead with
        | none => acc
        | some n =>
          (setKey acc.1 f.name (coverSkippedCount n), acc.2 + coverSkippedCount n))
        acc).2 = acc.2 + metaSum fs := by
    intro fs
    induction fs with
    | nil => intro acc; simp [metaSum]
    | cons f rest ih =>
      intro acc
      rcases hm : f.metaRead with _ | n <;>
        simp only [List.foldl_cons, hm, ih, metaSum, List.map_cons, List.sum_cons] <;>
        try omega
  have h0 := key files ([], 0)
  simpa [phase1] using h0

theorem windowBoundaries_mem (chs : List (List Nat)) :
    ∀ c b, b ∈ windowBoundaries c chs → b ≤ c + chs.flatten.length ∧
      ((∀ ch ∈ chs, ch ≠ []) → c < b) := by
  induction chs with
  | nil => intro c b hb; cases hb
  | cons ch rest ih =>
    intro c b hb
    rcases List.mem_cons.mp hb with rfl | hb
    · constructor
      · simp only [List.flatten_cons, List.length_append]
        omega
      · intro hne
        have : ch ≠ [] := hne ch (List.mem_cons_self ch rest)
        have : 0 < ch.length := List.length_pos.mpr this
        omega
    · obtain ⟨hle, hlt⟩ := ih (c + ch.length) b hb
      constructor
      · simp at hle ⊢
        omega
      · intro hne
        have := hlt (fun x hx => hne x (List.mem_cons_of_mem ch hx))
        omega

theorem windowBoundaries_pairwise (chs : List (List Nat))
    (hne : ∀ ch ∈ chs, ch ≠ []) :
    ∀ c, List.Pairwise (· < ·) (windowBoundaries c chs) := by
  induction chs with
  | nil => intro c; simp [windowBoundaries]
  | cons ch rest ih =>
    intro c
    rw [windowBoundaries]
    constructor
    · intro b hb
      exact (windowBoundaries_mem rest (c + ch.length) b hb).2
        (fun x hx => hne x (List.mem_cons_of_mem ch hx))
    · exact ih (fun x hx => hne x (List.mem_cons_of_mem ch hx)) (c + ch.length)

theorem windowBoundaries_nil_iff (c : Nat) (chs : List (List Nat)) :
    windowBoundaries c chs = [] ↔ chs = [] := by
  cases chs <;> simp [windowBoundaries]

theorem windowBoundaries_getLast (chs : List (List Nat)) :
    ∀ c, chs ≠ [] →
      (windowBoundaries c chs).getLast? = some (c + chs.flatten.length) := by
  induction chs with
  | nil => intro c h; exact absurd rfl h
  | cons ch rest ih =>
    intro c _
    rcases rest with _ | ⟨ch2, rest2⟩
    · simp [windowBoundaries]
    · rw [windowBoundaries]
      have hW : windowBoundaries (c + ch.length) (ch2 :: rest2) ≠ [] := by
        rw [windowBoundaries]
        simp
      rcases hW2 : windowBoundaries (c + ch.length) (ch2 :: rest2) with _ | ⟨w, ws⟩
      · exact absurd hW2 hW
      · have hlast := ih (c + ch.length) (by simp)
        rw [hW2] at hlast
        rw [List.getLast?_cons_cons, hlast]
        congr 1
        simp only [List.flatten_cons, List.length_append]
        omega

theorem chunks5_eq_nil_iff (l : List α) : chunks5 l = [] ↔ l = [] := by
  constructor
  · intro h
    have hf := chunks5_flatten l
    rw [h] at hf
    exact hf.symm
  · intro h
    subst h
    rfl

theorem runBoundaries_mem (files : List FileModel) :
    ∀ c b, (∀ f ∈ files, f.mainRead.isSome) → b ∈ runBoundaries c files →
      c < b ∧ b ≤ c + pagesSum files := by
  induction files with
  | nil => intro c b _ hb; cases hb
  | cons f rest ih =>
    intro c b hall hb
    rcases hmr : f.mainRead with _ | n
    · exact absurd (hall f (List.mem_cons_self f rest)) (by simp [hmr])
    · rw [runBoundaries, hmr] at hb
      have hsum : pagesSum (f :: rest) = (pageIndices n).length + pagesSum rest := by
        simp [pagesSum, hmr]
      rcases List.mem_append.mp hb with hb | hb
      · have hmem := windowBoundaries_mem (chunks5 (pageIndices n)) c b hb
        have hlt := hmem.2 (chunks5_ne_nil (pageIndices n))
        have hle := hmem.1
        rw [chunks5_flatten] at hle
        omega
      · have := ih (c + (pageIndices n).length) b
          (fun g hg => hall g (List.mem_cons_of_mem f hg)) hb
        omega

theorem runBoundaries_pairwise (files : List FileModel) :
    ∀ c, (∀ f ∈ files, f.mainRead.isSome) →
      List.Pairwise (· < ·) (runBoundaries c files) := by
  induction files with
  | nil => intro c _; simp [runBoundaries]
  | cons f rest ih =>
    intro c hall
    rcases hmr : f.mainRead with _ | n
    · exact absurd (hall f (List.mem_cons_self f rest)) (by simp [hmr])
    · rw [runBoundaries, hmr]
      have hrest : ∀ g ∈ rest, g.mainRead.isSome :=
        fun g hg => hall g (List.mem_cons_of_mem f hg)
      rw [List.pairwise_append]
      refine ⟨windowBoundaries_pairwise _ (chunks5_ne_nil (pageIndices n)) c,
        ih (c + (pageIndices n).length) hrest, ?_⟩
      intro a hax b hbr
      have ha := (windowBoundaries_mem (chunks5 (pageIndices n)) c a hax).1
      rw [chunks5_flatten] at ha
      have hbnd := (runBoundaries_mem rest (c + (pageIndices n).length) b hrest hbr).1
      omega

theorem runBoundaries_nil_iff (files : List FileModel) :
    ∀ c, (∀ f ∈ files, f.mainRead.isSome) →
      (runBoundaries c files = [] ↔ pagesSum files = 0) := by
  induction files with
  | nil => intro c _; simp [runBoundaries, pagesSum]
  | cons f rest ih =>
    intro c hall
    rcases hmr : f.mainRead with _ | n
    · exact absurd (hall f (List.mem_cons_self f rest)) (by simp [hmr])
    · rw [runBoundaries, hmr]
      have hrest : ∀ g ∈ rest, g.mainRead.isSome :=
        fun g hg => hall g (List.mem_cons_of_mem f hg)
      rw [List.append_eq_nil, windowBoundaries_nil_iff, chunks5_eq_nil_iff,
        ih (c + (pageIndices n).length) hrest]
      simp [pagesSum, hmr, List.length_eq_zero]

theorem runBoundaries_getLast (files : List FileModel) :
    ∀ c, (∀ f ∈ files, f.mainRead.isSome) → pagesSum files ≠ 0 →
      (runBoundaries c files).getLast? = some (c + pagesSum files) := by
  induction files with
  | nil => intro c _ h; simp [pagesSum] at h
  | cons f rest ih =>
    intro c hall hsum
    rcases hmr : f.mainRead with _ | n
    · exact absurd (hall f (List.mem_cons_self f rest)) (by simp [hmr])
    · rw [runBoundaries, hmr]
      dsimp only
      have hrest : ∀ g ∈ rest, g.mainRead.isSome :=
        fun g hg => hall g (List.mem_cons_of_mem f hg)
      have hsuma : pagesSum (f :: rest) = (pageIndices n).length + pagesSum rest := by
        simp [pagesSum, hmr]
      by_cases hz : pagesSum rest = 0
      · have hR : runBoundaries (c + (pageIndices n).length) rest = [] :=
          (runBoundaries_nil_iff rest _ hrest).mpr hz
        rw [hR, List.append_nil]
        have hk : pageIndices n ≠ [] := by
          intro hcontra
          rw [hsuma, hz] at hsum
          rw [hcontra] at hsum
          simp at hsum
        have hch : chunks5 (pageIndices n) ≠ [] := by
          rw [ne_eq, chunks5_eq_nil_iff]
          exact hk
        rw [windowBoundaries_getLast (chunks5 (pageIndices n)) c hch, chunks5_flatten,
          hsuma, hz]
        rfl
      · have hR : runBoundaries (c + (pageIndices n).length) rest ≠ [] := by
          rw [ne_eq, runBoundaries_nil_iff rest _ hrest]
          exact hz
        rw [List.getLast?_append_of_ne_nil _ hR,
          ih (c + (pageIndices n).length) hrest hz, hsuma]
        congr 1
        omega

theorem filterMap_updateOf_fst (total : Nat) (bs : List Nat) :
    (bs.filterMap (updateOf total)).map Prod.fst
      = bs.filter (fun b => b % 5 == 0 || b == total) := by
  induction bs with
  | nil => rfl
  | cons b rest ih =>
    rcases hu : updateOf total b with _ | p
    · have hcond : (b % 5 == 0 || b == total) = false := by
        by_contra hc
        have hc' : (b % 5 == 0 || b == total) = true := by
          revert hc
          cases (b % 5 == 0 || b == total) <;> simp
        simp [updateOf, hc'] at hu
      rw [List.filterMap_cons, hu, List.filter_cons]
      simp only [hcond, Bool.false_eq_true, if_false]
      exact ih
    · have hcond : (b % 5 == 0 || b == total) = true := by
        by_contra hc
        have hc' : (b % 5 == 0 || b == total) = false := by
          revert hc
          cases (b % 5 == 0 || b == total) <;> simp
        simp [updateOf, hc'] at hu
      have hp : p = (b, pctOf b total) := by
        simp [updateOf, hcond] at hu
        exact hu.symm
      rw [List.filterMap_cons, hu, List.filter_cons]
      simp only [hcond, if_true]
      simp [hp, ih]

theorem pctOf_self (t : Nat) (ht : 0 < t) : pctOf t t = 100 := by
  have ht' : (t : ℚ) ≠ 0 := by positivity
  unfold pctOf
  have hm : mkRat (100 * t) t = (100 : ℚ) := by
    rw [Rat.mkRat_eq_div]
    push_cast
    rw [mul_div_assoc, div_self ht', mul_one]
  rw [hm]
  decide

theorem batch_abort_rules (cfg : CalibrationConfig) (files : List FileModel)
    (qBox aBox : CropBox) (hq : cfg.questionBox = some qBox)
    (ha : cfg.answerBox = some aBox) (hne : files ≠ []) :
    ((processAndSaveTests cfg files).status = BatchStatus.error ↔
      ∃ f ∈ files, f.mainRead = none) ∧
    ((processAndSaveTests cfg files).status = BatchStatus.success ↔
      ∀ f ∈ files, f.mainRead.isSome) ∧
    (processAndSaveTests cfg files).tests =
      (files.takeWhile (fun f => f.mainRead.isSome)).filterMap (testOf aBox) := by
  obtain ⟨qb, ab⟩ := cfg
  simp only at hq ha
  subst hq
  subst ha
  have hie : files.isEmpty = false := by
    rw [List.isEmpty_eq_false_iff_exists_mem]
    rcases files with _ | ⟨f, rest⟩
    · exact absurd rfl hne
    · exact ⟨f, List.mem_cons_self f rest⟩
  obtain ⟨hok, htests, _, _⟩ :=
    runFiles_spec aBox (phase1 files).2 files 0
  simp only [processAndSaveTests, hie, Bool.false_eq_true, if_false, hok, htests]
  refine ⟨?_, ?_, trivial⟩
  · constructor
    · intro h
      by_cases hall : files.all (fun f => f.mainRead.isSome)
      · rw [if_pos hall] at h
        cases h
      · obtain ⟨f, hf, hnp⟩ := List.all_eq_false.mp (Bool.of_not_eq_true hall)
        exact ⟨f, hf, Option.not_isSome_iff_eq_none.mp (by simpa using hnp)⟩
    · intro ⟨f, hf, hnone⟩
      rw [if_neg]
      intro hall
      have := List.all_eq_true.mp hall f hf
      simp [hnone] at this
  · constructor
    · intro h
      by_cases hall : files.all (fun f => f.mainRead.isSome)
      · exact fun f hf => List.all_eq_true.mp hall f hf
      · rw [if_neg hall] at h
        cases h
    · intro hall
      rw [if_pos (List.all_eq_true.mpr hall)]

theorem coverSkipped_eq_len (n : Nat) :
    coverSkippedCount n = (pageIndices n).length := by
  unfold coverSkippedCount pageIndices
  rw [List.length_map, List.length_range]
  split <;> omega

theorem metaSum_eq_pagesSum (files : List FileModel)
    (h : ∀ f ∈ files, f.metaRead = f.mainRead) :
    metaSum files = pagesSum files := by
  induction files with
  | nil => rfl
  | cons f rest ih =>
    unfold metaSum pagesSum
    simp only [List.map_cons, List.sum_cons]
    have hf := h f (List.mem_cons_self f rest)
    have ihr := ih (fun g hg => h g (List.mem_cons_of_mem f hg))
    unfold metaSum pagesSum at ihr
    rw [ihr, hf]
    rcases f.mainRead with _ | n
    · rfl
    · dsimp only
      rw [coverSkipped_eq_len]

theorem tests_per_document (cfg : CalibrationConfig) (files : List FileModel)
    (qBox aBox : CropBox) (hq : cfg.questionBox = some qBox)
    (ha : cfg.answerBox = some aBox) (hne : files ≠ [])
    (hok : ∀ f ∈ files, f.mainRead.isSome) :
    (processAndSaveTests cfg files).tests = files.filterMap (testOf aBox) ∧
    (∀ f n, f.mainRead = some n →
      (testOf aBox f = none ↔ fileQuestions aBox f n = []) ∧
      (fileQuestions aBox f n ≠ [] →
        testOf aBox f = some (testNameOf f.name, fileQuestions aBox f n))) := by
  obtain ⟨qb, ab⟩ := cfg
  simp only at hq ha
  subst hq
  subst ha
  have hie : files.isEmpty = false := by
    rw [List.isEmpty_eq_false_iff_exists_mem]
    rcases files with _ | ⟨f, rest⟩
    · exact absurd rfl hne
    · exact ⟨f, List.mem_cons_self f rest⟩
  obtain ⟨_, htests, _, _⟩ := runFiles_spec aBox (phase1 files).2 files 0
  constructor
  · simp only [processAndSaveTests, hie, Bool.false_eq_true, if_false, htests]
    rw [List.takeWhile_eq_self_iff.mpr hok]
  · intro f n hmr
    constructor
    · unfold testOf
      rw [hmr]
      dsimp only
      split_ifs with hlen
      · constructor
        · intro h
          cases h
        · intro h
          rw [h] at hlen
          simp at hlen
      · simp only [Nat.not_lt, Nat.le_zero, List.length_eq_zero] at hlen
        simp [hlen]
    · intro hne'
      unfold testOf
      rw [hmr]
      dsimp only
      rw [if_pos (List.length_pos.mpr hne')]

theorem progress_reporting (cfg : CalibrationConfig) (files : List FileModel)
    (qBox aBox : CropBox) (hq : cfg.questionBox = some qBox)
    (ha : cfg.answerBox = some aBox) (hne : files ≠ [])
    (hcons : ∀ f ∈ files, f.metaRead = f.mainRead ∧ f.mainRead.isSome) :
    List.Pairwise (· < ·)
      ((processAndSaveTests cfg files).updates.map Prod.fst) ∧
    (∀ u ∈ (processAndSaveTests cfg files).updates,
      u.2 = pctOf u.1 (processAndSaveTests cfg files).totalPages ∧
      (u.1 % 5 = 0 ∨ u.1 = (processAndSaveTests cfg files).totalPages)) ∧
    (processAndSaveTests cfg files).processed
      = (processAndSaveTests cfg files).totalPages ∧
    (0 < (processAndSaveTests cfg files).totalPages →
      ((processAndSaveTests cfg files).totalPages, 100)
        ∈ (processAndSaveTests cfg files).updates) := by
  obtain ⟨qb, ab⟩ := cfg
  simp only at hq ha
  subst hq
  subst ha
  have hok : ∀ f ∈ files, f.mainRead.isSome := fun f hf => (hcons f hf).2
  have hie : files.isEmpty = false := by
    rw [List.isEmpty_eq_false_iff_exists_mem]
    rcases files with _ | ⟨f, rest⟩
    · exact absurd rfl hne
    · exact ⟨f, List.mem_cons_self f rest⟩
  obtain ⟨_, _, hupd, hcount⟩ := runFiles_spec aBox (phase1 files).2 files 0
  have hT : (phase1 files).2 = pagesSum files := by
    rw [phase1_total]
    exact metaSum_eq_pagesSum files (fun f hf => (hcons f hf).1)
  simp only [processAndSaveTests, hie, Bool.false_eq_true, if_false, hupd, hcount hok]
  refine ⟨?_, ?_, by omega, ?_⟩
  · rw [filterMap_updateOf_fst]
    exact (runBoundaries_pairwise files 0 hok).sublist
      (List.filter_sublist (runBoundaries 0 files))
  · intro u hu
    obtain ⟨b, _, hb⟩ := List.mem_filterMap.mp hu
    unfold updateOf at hb
    split_ifs at hb with hcond
    · injection hb with hb
      subst hb
      refine ⟨rfl, ?_⟩
      dsimp only
      rcases Bool.or_eq_true_iff.mp hcond with hc | hc
      · exact Or.inl (by simpa using hc)
      · exact Or.inr (by simpa using hc)
  · intro hpos
    rw [hT] at hpos ⊢
    have hz : pagesSum files ≠ 0 := by omega
    have hlast := runBoundaries_getLast files 0 hok hz
    have hmem : (0 + pagesSum files) ∈ runBoundaries 0 files := by
      obtain ⟨hne', heq⟩ := List.mem_getLast?_eq_getLast (by rw [hlast]; rfl)
      rw [heq]
      exact List.getLast_mem hne'
    rw [Nat.zero_add] at hmem
    refine List.mem_filterMap.mpr ⟨pagesSum files, hmem, ?_⟩
    unfold updateOf
    rw [if_pos (by simp), pctOf_self _ (by omega)]

theorem mergeF_perm (le : α → α → Bool) :
    ∀ (n : Nat) (xs ys : List α), xs.length + ys.length ≤ n →
      (mergeF le n xs ys).Perm (xs ++ ys) := by
  intro n
  induction n with
  | zero =>
    intro xs ys h
    rcases xs with _ | ⟨x, xs⟩
    · simp [mergeF]
    · simp at h
  | succ n ih =>
    intro xs ys h
    rcases xs with _ | ⟨x, xs⟩
    · simp [mergeF]
    · rcases ys with _ | ⟨y, ys⟩
      · simp [mergeF]
      · rw [mergeF]
        split_ifs with hle
        · exact (ih xs (y :: ys) (by simp at h ⊢; omega)).cons x
        · exact ((ih (x :: xs) ys (by simp at h ⊢; omega)).cons y).trans
            List.perm_middle.symm

theorem mergeF_mem (le : α → α → Bool) (n : Nat) (xs ys : List α)
    (h : xs.length + ys.length ≤ n) (z : α) :
    z ∈ mergeF le n xs ys ↔ z ∈ xs ∨ z ∈ ys := by
  rw [(mergeF_perm le n xs ys h).mem_iff, List.mem_append]

theorem mergeF_pairwise (le : α → α → Bool) (S : List α)
    (htrans : ∀ a ∈ S, ∀ b ∈ S, ∀ c ∈ S,
      le a b = true → le b c = true → le a c = true)
    (htot : ∀ a b : α, le a b = true ∨ le b a = true) :
    ∀ (n : Nat) (xs ys : List α), xs.length + ys.length ≤ n →
      (∀ x ∈ xs, x ∈ S) → (∀ y ∈ ys, y ∈ S) →
      xs.Pairwise (fun a b => le a b = true) →
      ys.Pairwise (fun a b => le a b = true) →
      (mergeF le n xs ys).Pairwise (fun a b => le a b = true) := by
  intro n
  induction n with
  | zero =>
    intro xs ys h _ hyS _ hpy
    rcases xs with _ | ⟨x, xs⟩
    · simpa [mergeF] using hpy
    · simp at h
  | succ n ih =>
    intro xs ys h hxS hyS hpx hpy
    rcases xs with _ | ⟨x, xs⟩
    · simpa [mergeF] using hpy
    · rcases ys with _ | ⟨y, ys⟩
      · simpa [mergeF] using hpx
      · have hlen : xs.length + (y :: ys).length ≤ n := by simp at h ⊢; omega
        have hlen2 : (x :: xs).length + ys.length ≤ n := by simp at h ⊢; omega
        obtain ⟨hx1, hpx'⟩ := List.pairwise_cons.mp hpx
        obtain ⟨hy1, hpy'⟩ := List.pairwise_cons.mp hpy
        rw [mergeF]
        split_ifs with hle
        · rw [List.pairwise_cons]
          constructor
          · intro z hz
            rcases (mergeF_mem le n xs (y :: ys) hlen z).mp hz with hz | hz
            · exact hx1 z hz
            · rcases List.mem_cons.mp hz with rfl | hz
              · exact hle
              · exact htrans x (hxS x (List.mem_cons_self x xs))
                  y (hyS y (List.mem_cons_self y ys))
                  z (hyS z (List.mem_cons_of_mem y hz)) hle (hy1 z hz)
          · exact ih xs (y :: ys) hlen
              (fun a ha => hxS a (List.mem_cons_of_mem x ha)) hyS hpx' hpy
        · have hyx : le y x = true := (htot x y).resolve_left (by simpa using hle)
          rw [List.pairwise_cons]
          constructor
          · intro z hz
            rcases (mergeF_mem le n (x :: xs) ys hlen2 z).mp hz with hz | hz
            · rcases List.mem_cons.mp hz with rfl | hz
              · exact hyx
              · exact htrans y (hyS y (List.mem_cons_self y ys))
                  x (hxS x (List.mem_cons_self x xs))
                  z (hxS z (List.mem_cons_of_mem x hz)) hyx (hx1 z hz)
            · exact hy1 z hz
          · exact ih (x :: xs) ys hlen2 hxS
              (fun a ha => hyS a (List.mem_cons_of_mem y ha)) hpx hpy'

theorem splitAlt_perm (l : List α) : ((splitAlt l).1 ++ (splitAlt l).2).Perm l := by
  induction l with
  | nil => simp [splitAlt]
  | cons a rest ih =>
    simp only [splitAlt]
    exact (List.perm_append_comm.trans ih).cons a

theorem msortF_perm (le : α → α → Bool) :
    ∀ (n : Nat) (l : List α), l.length ≤ n → (msortF le n l).Perm l := by
  intro n
  induction n with
  | zero =>
    intro l h
    rcases l with _ | ⟨a, l⟩
    · simp [msortF]
    · simp at h
  | succ n ih =>
    intro l h
    rcases l with _ | ⟨a, _ | ⟨b, rest⟩⟩
    · simp [msortF]
    · simp [msortF]
    · rw [msortF]
      have hs := splitAlt_length (a :: b :: rest)
      have h1 : (splitAlt (a :: b :: rest)).1.length ≤ n := by
        simp only [List.length_cons] at h hs
        omega
      have h2 : (splitAlt (a :: b :: rest)).2.length ≤ n := by
        simp only [List.length_cons] at h hs
        omega
      have hp1 := ih (splitAlt (a :: b :: rest)).1 h1
      have hp2 := ih (splitAlt (a :: b :: rest)).2 h2
      exact (mergeF_perm le _ _ _ (Nat.le_refl _)).trans
        ((hp1.append hp2).trans (splitAlt_perm _))

theorem msortF_pairwise (le : α → α → Bool) (S : List α)
    (htrans : ∀ a ∈ S, ∀ b ∈ S, ∀ c ∈ S,
      le a b = true → le b c = true → le a c = true)
    (htot : ∀ a b : α, le a b = true ∨ le b a = true) :
    ∀ (n : Nat) (l : List α), l.length ≤ n → (∀ x ∈ l, x ∈ S) →
      (msortF le n l).Pairwise (fun a b => le a b = true) := by
  intro n
  induction n with
  | zero =>
    intro l h _
    rcases l with _ | ⟨a, l⟩
    · simp [msortF]
    · simp at h
  | succ n ih =>
    intro l h hS
    rcases l with _ | ⟨a, _ | ⟨b, rest⟩⟩
    · simp [msortF]
    · simp [msortF]
    · rw [msortF]
      have hs := splitAlt_length (a :: b :: rest)
      have h1 : (splitAlt (a :: b :: rest)).1.length ≤ n := by
        simp only [List.length_cons] at h hs
        omega
      have h2 : (splitAlt (a :: b :: rest)).2.length ≤ n := by
        simp only [List.length_cons] at h hs
        omega
      have hsub : ∀ x ∈ (splitAlt (a :: b :: rest)).1 ++ (splitAlt (a :: b :: rest)).2,
          x ∈ S :=
        fun x hx => hS x ((splitAlt_perm (a :: b :: rest)).mem_iff.mp hx)
      have hS1 : ∀ x ∈ (splitAlt (a :: b :: rest)).1, x ∈ S :=
        fun x hx => hsub x (List.mem_append.mpr (Or.inl hx))
      have hS2 : ∀ x ∈ (splitAlt (a :: b :: rest)).2, x ∈ S :=
        fun x hx => hsub x (List.mem_append.mpr (Or.inr hx))
      exact mergeF_pairwise le S htrans htot _ _ _ (Nat.le_refl _)
        (fun x hx => hS1 x ((msortF_perm le n _ h1).mem_iff.mp hx))
        (fun x hx => hS2 x ((msortF_perm le n _ h2).mem_iff.mp hx))
        (ih _ h1 hS1) (ih _ h2 hS2)

theorem msort_perm (le : α → α → Bool) (l : List α) : (msort le l).Perm l :=
  msortF_perm le l.length l (Nat.le_refl _)

theorem msort_pairwise (le : α → α → Bool) (l : List α)
    (htrans : ∀ a ∈ l, ∀ b ∈ l, ∀ c ∈ l,
      le a b = true → le b c = true → le a c = true)
    (htot : ∀ a b : α, le a b = true ∨ le b a = true) :
    (msort le l).Pairwise (fun a b => le a b = true) :=
  msortF_pairwise le l htrans htot l.length l (Nat.le_refl _) (fun _ hx => hx)

theorem itemLe_total (a b : FoundItem) : itemLe a b = true ∨ itemLe b a = true := by
  unfold itemLe
  have habs : qabs (qsub a.y b.y) = qabs (qsub b.y a.y) := by
    rw [qabs_eq, qabs_eq, qsub_eq, qsub_eq, abs_sub_comm]
  by_cases hc : qabs (qsub a.y b.y) > 5
  · rw [if_pos hc, if_pos (habs ▸ hc)]
    rcases le_total a.y b.y with h | h
    · exact Or.inl (by simpa using h)
    · exact Or.inr (by simpa using h)
  · rw [if_neg hc, if_neg (habs ▸ hc)]
    rcases le_total a.x b.x with h | h
    · exact Or.inl (by simpa using h)
    · exact Or.inr (by simpa using h)

theorem itemLe_trans_on (S : List FoundItem)
    (hrow : ∀ a ∈ S, ∀ b ∈ S, ∀ c ∈ S,
      qabs (qsub a.y b.y) ≤ 5 → qabs (qsub b.y c.y) ≤ 5 →
      qabs (qsub a.y c.y) ≤ 5) :
    ∀ a ∈ S, ∀ b ∈ S, ∀ c ∈ S,
      itemLe a b = true → itemLe b c = true → itemLe a c = true := by
  intro a haS b hbS c hcS hab hbc
  have hrow' : ∀ x y : FoundItem, qabs (qsub x.y y.y) = |x.y - y.y| := by
    intro x y
    rw [qabs_eq, qsub_eq]
  unfold itemLe at hab hbc ⊢
  rw [hrow'] at hab hbc ⊢
  have hrow2 : ∀ x ∈ S, ∀ y ∈ S, ∀ z ∈ S,
      |x.y - y.y| ≤ 5 → |y.y - z.y| ≤ 5 → |x.y - z.y| ≤ 5 := by
    intro x hx y hy z hz h1 h2
    have := hrow x hx y hy z hz
    rw [hrow', hrow', hrow'] at this
    exact this h1 h2
  by_cases hac : |a.y - c.y| > 5
  · rw [if_pos hac]
    -- distinct rows: show a.y ≤ c.y
    by_cases h1 : |a.y - b.y| > 5
    · rw [if_pos h1] at hab
      by_cases h2 : |b.y - c.y| > 5
      · -- a.y ≤ b.y ≤ c.y
        rw [if_pos h2] at hbc
        simp only [decide_eq_true_eq] at hab hbc ⊢
        linarith
      · -- a below b, b same row as c
        rw [if_neg h2] at hbc
        simp only [decide_eq_true_eq] at hab hbc ⊢
        rw [not_lt, abs_sub_le_iff] at h2
        rcases lt_abs.mp hac with h | h
        · linarith [h2.1, h2.2]
        · linarith [h2.1, h2.2]
    · rw [if_neg h1] at hab
      by_cases h2 : |b.y - c.y| > 5
      · rw [if_pos h2] at hbc
        simp only [decide_eq_true_eq] at hab hbc ⊢
        rw [not_lt, abs_sub_le_iff] at h1
        rcases lt_abs.mp hac with h | h
        · linarith
        · linarith [h1.1, h1.2]
      · -- both same-row: transitivity of the row relation gives row a c,
        -- contradicting hac
        rw [not_lt] at h1 h2
        have := hrow2 a haS b hbS c hcS h1 h2
        exact absurd this (not_le.mpr hac)
  · rw [if_neg hac]
    -- same row: show a.x ≤ c.x
    by_cases h1 : |a.y - b.y| > 5
    · rw [if_pos h1] at hab
      by_cases h2 : |b.y - c.y| > 5
      · -- a.y ≤ b.y ≤ c.y with both gaps > 5 makes |a.y - c.y| > 5
        rw [if_pos h2] at hbc
        simp only [decide_eq_true_eq] at hab hbc
        rw [not_lt, abs_sub_le_iff] at hac
        rcases lt_abs.mp h1 with h | h
        · rcases lt_abs.mp h2 with h' | h' <;> linarith [hac.1, hac.2]
        · rcases lt_abs.mp h2 with h' | h' <;> linarith [hac.1, hac.2]
      · -- row b c and row a c (¬hac) force row a b, contradiction
        rw [not_lt] at h2 hac
        have hca : |c.y - a.y| ≤ 5 := by
          rw [abs_sub_comm]
          exact hac
        have hcb : |c.y - b.y| ≤ 5 := by
          rw [abs_sub_comm]
          exact h2
        have := hrow2 a haS c hcS b hbS hac hcb
        exact absurd this (not_le.mpr h1)
    · rw [if_neg h1] at hab
      by_cases h2 : |b.y - c.y| > 5
      · -- row a b and row a c force row b c, contradiction
        rw [not_lt] at h1 hac
        have hba : |b.y - a.y| ≤ 5 := by
          rw [abs_sub_comm]
          exact h1
        have := hrow2 b hbS a haS c hcS hba hac
        exact absurd this (not_le.mpr h2)
      · rw [if_neg h2] at hbc
        simp only [decide_eq_true_eq] at hab hbc ⊢
        linarith

theorem locateFound_eq_filter_map (convert : ℚ × ℚ → ℚ × ℚ)
    (items : List TextItem) (box : CropBox) :
    locateFound convert items box =
      (items.filter (fun it => !(it.str.isEmpty || (jsTrim it.str).isEmpty) &&
        inPaddedBox box (convert (it.tx, it.ty)).1 (convert (it.tx, it.ty)).2)).map
        (fun it => ⟨it.str, (convert (it.tx, it.ty)).1, (convert (it.tx, it.ty)).2⟩) := by
  induction items with
  | nil => rfl
  | cons it rest ih =>
    rw [locateFound, List.filterMap_cons, List.filter_cons]
    by_cases h1 : (it.str.isEmpty || (jsTrim it.str).isEmpty) = true
    · simp only [if_pos h1, h1, Bool.not_true, Bool.false_and,
        Bool.false_eq_true, if_false]
      exact ih
    · have h1' : (it.str.isEmpty || (jsTrim it.str).isEmpty) = false :=
        Bool.of_not_eq_true h1
      by_cases h2 : inPaddedBox box (convert (it.tx, it.ty)).1
          (convert (it.tx, it.ty)).2 = true
      · simp only [if_neg h1, h1', Bool.not_false, Bool.true_and, h2, if_true,
          List.map_cons]
        rw [← ih]
        rfl
      · have h2' := Bool.of_not_eq_true h2
        simp only [if_neg h1, h1', Bool.not_false, Bool.true_and, h2',
          Bool.false_eq_true, if_false]
        rw [← ih]
        rfl

theorem itemLe_imp_rowRel (a b : FoundItem) (hle : itemLe a b = true) :
    (qabs (qsub a.y b.y) ≤ 5 → a.x ≤ b.x) ∧
    (qabs (qsub a.y b.y) > 5 → a.y ≤ b.y) := by
  unfold itemLe at hle
  by_cases hc : qabs (qsub a.y b.y) > 5
  · rw [if_pos hc] at hle
    exact ⟨fun h => absurd hc (not_lt.mpr h), fun _ => by simpa using hle⟩
  · rw [if_neg hc] at hle
    exact ⟨fun _ => by simpa using hle, fun h => absurd h hc⟩

theorem locator_tokens (convert : ℚ × ℚ → ℚ × ℚ) (items : List TextItem)
    (box : CropBox)
    (hrow : ∀ a ∈ locateFound convert items box,
      ∀ b ∈ locateFound convert items box,
      ∀ c ∈ locateFound convert items box,
      qabs (qsub a.y b.y) ≤ 5 → qabs (qsub b.y c.y) ≤ 5 →
      qabs (qsub a.y c.y) ≤ 5) :
    locateFound convert items box =
      (items.filter (fun it => !(it.str.isEmpty || (jsTrim it.str).isEmpty) &&
        inPaddedBox box (convert (it.tx, it.ty)).1 (convert (it.tx, it.ty)).2)).map
        (fun it => ⟨it.str, (convert (it.tx, it.ty)).1, (convert (it.tx, it.ty)).2⟩) ∧
    (msort itemLe (locateFound convert items box)).Perm
      (locateFound convert items box) ∧
    rowOrdered (msort itemLe (locateFound convert items box)) ∧
    detectAnswerFromPdfText (Except.ok items) convert box =
      extractAnswerFromText
        (rawTextOf (msort itemLe (locateFound convert items box))) := by
  refine ⟨locateFound_eq_filter_map convert items box, msort_perm _ _, ?_, rfl⟩
  have hp := msort_pairwise itemLe (locateFound convert items box)
    (itemLe_trans_on (locateFound convert items box) hrow) itemLe_total
  exact hp.imp (fun hle => itemLe_imp_rowRel _ _ hle)

theorem answer_marker_selection_witness :
    (∃ m ∈ answerMarkers,
      occursAt (cleanText "الجواب: ب".data) m 0 ∧ m.length = 6) ∧
    (∀ m ∈ answerMarkers, ∀ j, occursAt (cleanText "الجواب: ب".data) m j → j ≤ 0) ∧
    (∀ m ∈ answerMarkers, occursAt (cleanText "الجواب: ب".data) m 0 → m.length ≤ 6) ∧
    (("الجواب: ب".data).isEmpty = false →
      extractAnswerFromText "الجواب: ب".data =
        match ((cleanText "الجواب: ب".data).drop (0 + 6)).find? isAnswerChar with
        | some c => normalizeAnswer [c]
        | none => shortTextFallback (cleanText "الجواب: ب".data)) :=
  answer_marker_selection "الجواب: ب".data 0 6 (by decide)

theorem meta_read_failure_no_abort :
    metaFailFile.metaRead = none ∧
    (processAndSaveTests cfgGood [metaFailFile]).status = BatchStatus.success ∧
    (processAndSaveTests cfgGood [metaFailFile]).tests.length = 1 :=
  ⟨rfl, by decide, by decide⟩

theorem batch_abort_rules_witness :
    ((processAndSaveTests cfgGood [goodFile, mainFailFile]).status
        = BatchStatus.error ↔
      ∃ f ∈ [goodFile, mainFailFile], f.mainRead = none) ∧
    ((processAndSaveTests cfgGood [goodFile, mainFailFile]).status
        = BatchStatus.success ↔
      ∀ f ∈ [goodFile, mainFailFile], f.mainRead.isSome) ∧
    (processAndSaveTests cfgGood [goodFile, mainFailFile]).tests =
      (([goodFile, mainFailFile]).takeWhile
        (fun f => f.mainRead.isSome)).filterMap (testOf sampleBox) :=
  batch_abort_rules cfgGood [goodFile, mainFailFile] sampleBox sampleBox
    rfl rfl (by simp)

theorem detect_never_null_witness :
    detectAnswerFromImage (Except.error ()) = 'أ' ∧
    detectAnswerFromImage (Except.ok "xyz".data) = 'أ' ∧
    detectAnswerFromImage (Except.ok "xyz".data) ∈ (['أ', 'ب', 'ج', 'د'] : List Char) ∧
    questionGood.correctAnswer ∈ (['أ', 'ب', 'ج', 'د'] : List Char) := by
  have h := detect_never_null () "xyz".data goodEff sampleBox questionGood
  exact ⟨h.1, h.2.1 (by decide), h.2.2.1, h.2.2.2 (by decide)⟩

theorem testname_strips_extension :
    (processAndSaveTests cfgGood [goodFile]).tests.map Prod.fst = ["Quiz".data] ∧
    jsTrim (("Quiz.pdf".data).takeWhile (fun c => c != '-')) = "Quiz.pdf".data ∧
    ("Quiz".data : List Char) ≠ "Quiz.pdf".data :=
  ⟨by decide, by decide, by decide⟩

theorem tests_per_document_witness :
    (processAndSaveTests cfgGood [goodFile]).tests
      = [goodFile].filterMap (testOf sampleBox) ∧
    (processAndSaveTests cfgGood [goodFile]).tests.map
      (fun t => (t.1, t.2.length)) = [("Quiz".data, 5)] :=
  ⟨(tests_per_document cfgGood [goodFile] sampleBox sampleBox rfl rfl
      (by simp) (by decide)).1, by decide⟩

theorem cropbox_commit_iff_witness :
    handleMouseUp CropMode.question true (some (0, 0)) (25, 30) ⟨none, none⟩
      = ⟨some ⟨0, 0, 25, 30⟩, none⟩ ∧
    handleMouseUp CropMode.question true (some (0, 0)) (20, 30) ⟨none, none⟩
      = ⟨none, none⟩ := by
  constructor
  · have h := (cropbox_commit_iff CropMode.question (0, 0) (25, 30)
      ⟨none, none⟩ (by decide)).2 (by decide)
    rw [h]
    decide
  · exact (cropbox_commit_iff CropMode.question (0, 0) (20, 30)
      ⟨none, none⟩ (by decide)).1 (by decide)

theorem threshold_idempotent_binary_witness :
    (∀ p ∈ thresholdData [⟨200, 10, 10, 7⟩, ⟨255, 255, 255, 3⟩],
      (p.r = 0 ∨ p.r = 255) ∧ (p.g = 0 ∨ p.g = 255) ∧ (p.b = 0 ∨ p.b = 255)) ∧
    thresholdData (thresholdData [⟨200, 10, 10, 7⟩, ⟨255, 255, 255, 3⟩])
      = thresholdData [⟨200, 10, 10, 7⟩, ⟨255, 255, 255, 3⟩] :=
  threshold_idempotent_binary [⟨200, 10, 10, 7⟩, ⟨255, 255, 255, 3⟩]

theorem locator_claim_cex :
    (locateFound id cexItems cexBox).length = 3 ∧
    (cexItems.filter
      (fun it => inPaddedBox cexBox it.tx it.ty)).length = 4 ∧
    msort itemLe (locateFound id cexItems cexBox)
      = [⟨"ج".data, 0, 4⟩, ⟨"ب".data, 10, 0⟩, ⟨"د".data, -5, 8⟩] ∧
    ¬ rowOrdered (msort itemLe (locateFound id cexItems cexBox)) := by
  refine ⟨by decide, by decide, by decide, ?_⟩
  intro hord
  rw [(by decide : msort itemLe (locateFound id cexItems cexBox)
      = [⟨"ج".data, 0, 4⟩, ⟨"ب".data, 10, 0⟩, ⟨"د".data, -5, 8⟩])] at hord
  obtain ⟨hB, _⟩ := List.pairwise_cons.mp hord
  have hpair := hB ⟨"د".data, -5, 8⟩ (by simp)
  have hc := hpair.1 (by decide)
  exact absurd hc (by decide)

theorem locator_tokens_witness :
    locateFound id rowItems sampleBox =
      (rowItems.filter (fun it => !(it.str.isEmpty || (jsTrim it.str).isEmpty) &&
        inPaddedBox sampleBox (id (it.tx, it.ty)).1 (id (it.tx, it.ty)).2)).map
        (fun it => ⟨it.str, (id (it.tx, it.ty)).1, (id (it.tx, it.ty)).2⟩) ∧
    (msort itemLe (locateFound id rowItems sampleBox)).Perm
      (locateFound id rowItems sampleBox) ∧
    rowOrdered (msort itemLe (locateFound id rowItems sampleBox)) ∧
    detectAnswerFromPdfText (Except.ok rowItems) id sampleBox =
      extractAnswerFromText
        (rawTextOf (msort itemLe (locateFound id rowItems sampleBox))) :=
  locator_tokens id rowItems sampleBox (by decide)

theorem progress_skips_fifth :
    (processAndSaveTests cfgGood [fileA3, fileB5]).totalPages = 8 ∧
    (processAndSaveTests cfgGood [fileA3, fileB5]).updates.map Prod.fst = [8] ∧
    5 ∉ (processAndSaveTests cfgGood [fileA3, fileB5]).updates.map Prod.fst :=
  ⟨by decide, by decide, by decide⟩

theorem progress_reporting_witness :
    List.Pairwise (· < ·)
      ((processAndSaveTests cfgGood [goodFile]).updates.map Prod.fst) ∧
    (∀ u ∈ (processAndSaveTests cfgGood [goodFile]).updates,
      u.2 = pctOf u.1 (processAndSaveTests cfgGood [goodFile]).totalPages ∧
      (u.1 % 5 = 0 ∨ u.1 = (processAndSaveTests cfgGood [goodFile]).totalPages)) ∧
    (processAndSaveTests cfgGood [goodFile]).processed
      = (processAndSaveTests cfgGood [goodFile]).totalPages ∧
    (0 < (processAndSaveTests cfgGood [goodFile]).totalPages →
      ((processAndSaveTests cfgGood [goodFile]).totalPages, 100)
        ∈ (processAndSaveTests cfgGood [goodFile]).updates) :=
  progress_reporting cfgGood [goodFile] sampleBox sampleBox rfl rfl
    (by simp) (by decide)
